import Mathlib

/-!
Verification development for the MinervaAI retrieval core.

The Python sources embedded here are `src/embedding.py` (chunking via the
text splitter it instantiates), `src/vector_db.py` (the FAISS-backed vector
store), `src/search.py` (the retrieval/summarization orchestrator) and
`src/data_loader.py` (document loaders).  Text is modelled as `List Char`,
machine floats as exact integers (`Int`), and the external collaborators
(embedding model, generation service, filesystem) as explicit function or
data parameters.  External library behaviour that the code relies on is
embedded from the documented semantics of those libraries: the recursive
character splitter (separator priority list, keep-separator splitting,
whitespace stripping, merge with overlap) and FAISS `IndexFlatL2.search`
(always `k` result slots, missing slots padded with label `-1` and a
maximal distance).
-/

namespace MinervaAI

/-- Text as a character sequence; `List Char` mirrors Python strings
character-for-character (`len` becomes `List.length`). -/
abbrev Text := List Char

/-- Sum of the lengths of a list of texts. -/
def sumLens (l : List Text) : Nat := (l.map List.length).sum

/-- Python `str.isspace()`, the exact set of characters `str.strip()`
removes: code points 0x09-0x0d (tab, LF, vertical tab, form feed, CR),
0x1c-0x1f (file/group/record/unit separators), 0x20 (space), 0x85 (next
line), 0xa0 (no-break space), 0x1680, 0x2000-0x200a, 0x2028, 0x2029,
0x202f, 0x205f and 0x3000 (the Unicode space characters). -/
def pyWS (c : Char) : Bool :=
  (0x09 ≤ c.toNat && c.toNat ≤ 0x0d) ||
  (0x1c ≤ c.toNat && c.toNat ≤ 0x1f) ||
  c.toNat = 0x20 || c.toNat = 0x85 || c.toNat = 0xa0 || c.toNat = 0x1680 ||
  (0x2000 ≤ c.toNat && c.toNat ≤ 0x200a) ||
  c.toNat = 0x2028 || c.toNat = 0x2029 || c.toNat = 0x202f ||
  c.toNat = 0x205f || c.toNat = 0x3000

/-- Python `str.strip()` on both ends (whitespace removal). -/
def stripT (t : Text) : Text :=
  ((t.dropWhile pyWS).reverse.dropWhile pyWS).reverse

/-- `sep.join(docs)`: concatenation with `sep` between consecutive pieces. -/
def icat (s : Text) : List Text → Text
  | [] => []
  | [x] => x
  | x :: y :: xs => x ++ s ++ icat s (y :: xs)

/-- First occurrence of the (nonempty) literal separator `sep` in `t`:
`some (p, r)` when `t = p ++ sep ++ r` with `p` minimal, else `none`.
This is `re.search`/`re.split` with an escaped literal pattern. -/
def breakOnSep (sep : Text) : Text → Option (Text × Text)
  | [] => none
  | c :: rest =>
    if sep.isPrefixOf (c :: rest) then some ([], (c :: rest).drop sep.length)
    else (breakOnSep sep rest).map fun pr => (c :: pr.1, pr.2)

/-- Substring occurrence test, as used by the splitter to pick a separator. -/
def occursIn (sep t : Text) : Bool := (breakOnSep sep t).isSome

/-- `re.split` on a nonempty literal separator, fuelled: splits off pieces at
each occurrence.  Fuel `t.length` always suffices because every found
occurrence strictly shortens the remaining suffix. -/
def splitPartsF (sep : Text) : Nat → Text → List Text
  | 0, t => [t]
  | fuel + 1, t =>
    match breakOnSep sep t with
    | none => [t]
    | some (p, r) => p :: splitPartsF sep fuel r

/-- Drop empty pieces, as the splitter filters `[s for s in splits if s != ""]`. -/
def dropEmpty (l : List Text) : List Text := l.filter fun s => !s.isEmpty

/-- `_split_text_with_regex(text, re.escape(sep), keep_separator=True)`:
the separator is reattached to the start of the piece that follows it; for
the empty separator the text is split into single characters; empty pieces
are filtered out. -/
def splitKeep (sep : Text) (t : Text) : List Text :=
  dropEmpty
    (if sep = [] then t.map fun c => [c]
     else
       match splitPartsF sep t.length t with
       | [] => [t]
       | p :: ps => p :: ps.map fun x => sep ++ x)

/-- A maximal group of consecutive splitter pieces: a `run` of pieces that are
each strictly below `chunk_size` (buffered into `_good_splits` and merged
together), or a single too-long `big` piece (recursed on or emitted as is). -/
inductive Piece where
  | run (xs : List Text)
  | big (x : Text)

/-- Group the splits the way the `for s in splits` loop of `_split_text`
consumes them: consecutive short pieces form one merge batch, each oversized
piece stands alone. -/
def groupSplits (cs : Nat) : List Text → List Piece
  | [] => []
  | s :: rest =>
    if s.length < cs then
      match groupSplits cs rest with
      | Piece.run xs :: t => Piece.run (s :: xs) :: t
      | t => Piece.run [s] :: t
    else Piece.big s :: groupSplits cs rest

/-- The `while total > chunk_overlap or ...` loop of `_merge_splits` that pops
pieces from the front of the running window before appending the next piece
of length `dlen`.  The empty-window case is unreachable in the source (the
running total is then `0`) and simply stops. -/
def popLoop (cs ov slen dlen : Nat) : List Text → Nat → List Text × Nat
  | [], total => ([], total)
  | x :: rest, total =>
    if total > ov ∨ (total + dlen + slen > cs ∧ total > 0) then
      popLoop cs ov slen dlen rest (total - (x.length + if rest.isEmpty then 0 else slen))
    else (x :: rest, total)

/-- `_join_docs`: join with the separator, strip surrounding whitespace
(`strip_whitespace=True` default), drop the result when it is empty. -/
def joinDocs (sep : Text) (docs : List Text) : Option Text :=
  let text := stripT (icat sep docs)
  if text = [] then none else some text

/-- The body of `_merge_splits(splits, separator)`: fold the pieces into
windows of at most `chunk_size` characters, emitting a joined document each
time the next piece would overflow, and keeping up to `chunk_overlap`
characters of trailing window as context. -/
def mergeAux (cs ov : Nat) (sep : Text) : List Text → List Text → Nat → List Text
  | [], cur, _total => (joinDocs sep cur).toList
  | d :: ds, cur, total =>
    if total + d.length + (if cur.isEmpty then 0 else sep.length) > cs then
      if cur.isEmpty then
        mergeAux cs ov sep ds (cur ++ [d]) (total + d.length)
      else
        let emitted := (joinDocs sep cur).toList
        let popped := popLoop cs ov sep.length d.length cur total
        emitted ++ mergeAux cs ov sep ds (popped.1 ++ [d])
          (popped.2 + d.length + (if popped.1.isEmpty then 0 else sep.length))
    else
      mergeAux cs ov sep ds (cur ++ [d])
        (total + d.length + (if cur.isEmpty then 0 else sep.length))

/-- `_merge_splits` entry point (empty window, zero total). -/
def mergeSplits (cs ov : Nat) (sep : Text) (splits : List Text) : List Text :=
  mergeAux cs ov sep splits [] 0

/-- `_split_text(text, separators)`.  The separator-selection loop (take the
first separator that is empty or occurs in the text, falling back to the last
one) is realized by structural descent: a leading separator that is nonempty
and does not occur behaves exactly as skipping to the remaining separators.
The `[]` case is the processing that happens when the last separator was
chosen as the fallback and does not occur: the whole text is the single
piece, merged alone when short, kept as-is when oversized.  Because
`keep_separator=True`, every merge uses the empty separator. -/
def splitText (cs ov : Nat) : List Text → Text → List Text
  | [], t =>
    if t = [] then []
    else if t.length < cs then (joinDocs [] [t]).toList
    else [t]
  | s :: rest, t =>
    if s = [] then
      (groupSplits cs (splitKeep [] t)).flatMap fun g =>
        match g with
        | Piece.run xs => mergeSplits cs ov [] xs
        | Piece.big x => [x]
    else if occursIn s t then
      (groupSplits cs (splitKeep s t)).flatMap fun g =>
        match g with
        | Piece.run xs => mergeSplits cs ov [] xs
        | Piece.big x => if rest.isEmpty then [x] else splitText cs ov rest x
    else splitText cs ov rest t

/-- The separator priority list passed in `EmbeddingPipeline.chunk_documents`:
paragraph break, line break, space, empty string (hard cut). -/
def fullSeps : List Text := [['\n', '\n'], ['\n'], [' '], []]

/-- A LangChain `Document`/chunk: text content plus source metadata of
type `μ`. -/
structure LCDoc (μ : Type) where
  page_content : Text
  metadata : μ
deriving DecidableEq

/-- `EmbeddingPipeline.chunk_documents`: split every document with the
recursive splitter (`split_documents` = split each `page_content`, each chunk
carrying a copy of the source metadata, order preserved). -/
def chunkDocuments {μ : Type} (cs ov : Nat) (docs : List (LCDoc μ)) : List (LCDoc μ) :=
  docs.flatMap fun d => (splitText cs ov fullSeps d.page_content).map fun c => ⟨c, d.metadata⟩

/-! ### Vector store (`src/vector_db.py`) -/

/-- An embedding vector; float32 coordinates modelled as exact integers. -/
abbrev Vec := List Int

/-- Squared Euclidean distance, the metric of `faiss.IndexFlatL2`. -/
def sqDist (q v : Vec) : Int := ((q.zip v).map fun p => (p.1 - p.2) * (p.1 - p.2)).sum

/-- The flat L2 index: the ordered sequence of vectors added so far
(`ntotal = vecs.length`). -/
structure FaissIndexL2 where
  vecs : List Vec
deriving DecidableEq

/-- Stand-in for the `FLT_MAX` distance FAISS reports on padding slots. -/
def fltMax : Int := 2 ^ 128

/-- All `(position, distance)` pairs for a query, positions starting at `i`. -/
def pairsAux (q : Vec) : List Vec → Nat → List (Nat × Int)
  | [], _ => []
  | v :: vs, i => (i, sqDist q v) :: pairsAux q vs (i + 1)

/-- Comparison by distance, used to rank search candidates. -/
def distLe (a b : Nat × Int) : Prop := a.2 ≤ b.2

instance : DecidableRel distLe := fun a b => inferInstanceAs (Decidable (a.2 ≤ b.2))

instance : IsTotal (Nat × Int) distLe := ⟨fun a b => Int.le_total a.2 b.2⟩

instance : IsTrans (Nat × Int) distLe := ⟨fun _ _ _ h1 h2 => le_trans h1 h2⟩

/-- `faiss.IndexFlatL2.search` for one query vector: the `k` nearest entries
as `(label, distance)` with distances ascending; when the index holds fewer
than `k` vectors the remaining slots are padded with label `-1` and a
maximal distance. -/
def faissSearch (ix : FaissIndexL2) (q : Vec) (k : Nat) : List (Int × Int) :=
  let sorted := List.insertionSort distLe (pairsAux q ix.vecs 0)
  let top := (sorted.take k).map fun p => ((p.1 : Int), p.2)
  top ++ List.replicate (k - top.length) (-1, fltMax)

/-- Python list subscription `l[i]` for the indices reachable in `search`
(`i ≥ -1` always holds there: FAISS labels): a nonnegative `i` reads from
the front, `-1` reads the last element, and subscribing outside the range
(in particular `l[-1]` on an empty list) raises `IndexError`. -/
def pyIndexE {μ : Type} (l : List μ) (i : Int) : Except String μ :=
  match (if 0 ≤ i then l.get? i.toNat else l.getLast?) with
  | some x => Except.ok x
  | none => Except.error "IndexError: list index out of range"

/-- One entry of the list returned by `FaissVectorStore.search`:
`{"index": idx, "distance": dist, "metadata": meta}` with `None` as `none`. -/
structure SearchResult (μ : Type) where
  index : Int
  distance : Int
  metadata : Option μ
deriving DecidableEq

/-- `FaissVectorStore` state: persist directory, optional FAISS index, and
the parallel metadata list.  The embedding model and chunk parameters are
external collaborators and constants irrelevant to the claims. -/
structure Store (μ : Type) where
  persistDir : String
  index : Option FaissIndexL2
  metadata : List μ
deriving DecidableEq

/-- `FaissVectorStore.__init__`: no index yet, empty metadata. -/
def mkStore {μ : Type} (persistDir : String) : Store μ :=
  ⟨persistDir, none, []⟩

/-- The vectors currently held (empty before the lazy index creation). -/
def vecsOf {μ : Type} (st : Store μ) : List Vec :=
  match st.index with
  | none => []
  | some ix => ix.vecs

/-- `index.ntotal` of the store (0 when no index exists yet). -/
def vecCount {μ : Type} (st : Store μ) : Nat := (vecsOf st).length

/-- `FaissVectorStore.add_embeddings(embeddings, metadatas=None)`: lazily
create the index, append the vectors, and extend the metadata only when
`metadatas` is truthy (neither `None` nor the empty list).  No length check
is performed. -/
def addEmbeddings {μ : Type} (st : Store μ) (embeddings : List Vec)
    (metadatas : Option (List μ)) : Store μ :=
  { st with
    index := some ⟨vecsOf st ++ embeddings⟩
    metadata :=
      match metadatas with
      | none => st.metadata
      | some l => if l.isEmpty then st.metadata else st.metadata ++ l }

/-- A sequence of `add_embeddings` calls applied in order. -/
def addSeq {μ : Type} (st : Store μ) (calls : List (List Vec × Option (List μ))) : Store μ :=
  calls.foldl (fun s c => addEmbeddings s c.1 c.2) st

/-- The matched pair of artifacts `save` writes under the persist directory:
the binary index (its vectors) and the pickled metadata list. -/
structure SavedStore (μ : Type) where
  vecs : List Vec
  metadata : List μ
deriving DecidableEq

/-- Error raised by `faiss.write_index(None, path)`. -/
def saveErr : String := "TypeError: write_index on a None index"

/-- `FaissVectorStore.save`: persist index and metadata as a pair; fails on a
store that never built an index. -/
def saveStore {μ : Type} (st : Store μ) : Except String (SavedStore μ) :=
  match st.index with
  | none => Except.error saveErr
  | some ix => Except.ok ⟨ix.vecs, st.metadata⟩

/-- `FaissVectorStore.load`: read both artifacts back, replacing the index
and metadata of the receiving store. -/
def loadStore {μ : Type} (sv : SavedStore μ) (st : Store μ) : Store μ :=
  { st with index := some ⟨sv.vecs⟩, metadata := sv.metadata }

/-- Error raised by `self.index.search` when `self.index is None`. -/
def searchNoneErr : String := "AttributeError: NoneType object has no search"

/-- The result list built by the `for idx, dist in zip(I[0], D[0])` loop:
each returned slot keeps its raw distance, and the metadata lookup is
`self.metadata[idx] if idx < len(self.metadata) else None` — note that a
padding label `-1` passes the guard and subscribes `metadata[-1]`, which on
an empty metadata list raises `IndexError` out of `search`. -/
def searchResults {μ : Type} (metadata : List μ) (ix : FaissIndexL2) (q : Vec) (k : Nat) :
    Except String (List (SearchResult μ)) :=
  (faissSearch ix q k).mapM fun p =>
    if p.1 < (metadata.length : Int) then
      (pyIndexE metadata p.1).map fun m => SearchResult.mk p.1 p.2 (some m)
    else Except.ok ⟨p.1, p.2, none⟩

/-- `FaissVectorStore.search(query_embedding, top_k)`. -/
def storeSearch {μ : Type} (st : Store μ) (q : Vec) (k : Nat) :
    Except String (List (SearchResult μ)) :=
  match st.index with
  | none => Except.error searchNoneErr
  | some ix => searchResults st.metadata ix q k

/-- `FaissVectorStore.query(query_text, top_k)`: encode with the shared
embedding model (an external collaborator, passed as `embed`), then search. -/
def storeQuery {μ : Type} (embed : String → Vec) (st : Store μ) (text : String) (k : Nat) :
    Except String (List (SearchResult μ)) :=
  storeSearch st (embed text) k

/-! ### Retrieval/summarization orchestrator (`src/search.py`) -/

/-- A metadata record as used by the orchestrator: a string-keyed dict. -/
abbrev MetaD := List (String × String)

/-- Python `dict.get(k, d)`. -/
def dictGet (m : MetaD) (k d : String) : String := (m.lookup k).getD d

/-- The fixed sentinel answer for an empty context. -/
def noResultsMsg : String := "No relevant documents found."

/-- A single-quote character (kept out of string literals). -/
def sq : String := String.singleton (Char.ofNat 39)

/-- The summarization prompt of `search_and_summarize`. -/
def buildPrompt (query context : String) : String :=
  "Summarize the following context for the query: " ++ sq ++ query ++ sq ++
    "\n\nContext:\n" ++ context ++ "\n\nSummary:"

/-- `[r["metadata"].get("text", "") for r in results if r["metadata"]]`:
the `if r["metadata"]` filter is Python truthiness, which drops both `None`
and the empty dict. -/
def textsOf (results : List (SearchResult MetaD)) : List String :=
  results.filterMap fun r =>
    r.metadata.bind fun m => if m.isEmpty then none else some (dictGet m "text" "")

/-- The context block `"\n\n".join(texts)` assembled from retrieved
results. -/
def contextOfR (results : List (SearchResult MetaD)) : String :=
  String.intercalate "\n\n" (textsOf results)

/-- `RAGSearch.search_and_summarize(query, top_k)`: retrieve, join the chunk
texts with blank lines, answer the sentinel on an empty context, otherwise
delegate the prompt to the external generator `llm`.  A raising retrieval
propagates its exception. -/
def searchAndSummarize (embed : String → Vec) (llm : String → String)
    (st : Store MetaD) (query : String) (k : Nat) : Except String String :=
  (storeQuery embed st query k).map fun results =>
    if contextOfR results = "" then noResultsMsg
    else llm (buildPrompt query (contextOfR results))

/-! ### Document loaders (`src/data_loader.py`) -/

/-- A parsed JSON value. -/
inductive Json where
  | null
  | str (s : String)
  | num (n : Int)
  | bool (b : Bool)
  | arr (elems : List Json)
  | obj (fields : List (String × Json))

/-- Whether a JSON value is an object (a Python dict after `json.load`). -/
def Json.isObjB : Json → Bool
  | .obj _ => true
  | _ => false

/-- Python `dict.get(k, d)` on a JSON value: errors (AttributeError) when the
receiver is not a dict. -/
def Json.pyGet : Json → String → Json → Except String Json
  | .obj fields, k, d => Except.ok ((fields.lookup k).getD d)
  | _, _, _ => Except.error "AttributeError: get on a non-dict value"

/-- Total field lookup with default, used only to state claim-side
properties (what `get` returns when the receiver is a dict). -/
def Json.lookupD : Json → String → Json → Json
  | .obj fields, k, d => (fields.lookup k).getD d
  | _, _, d => d

/-- A loader-produced LangChain `Document`: raw content and metadata dict as
JSON values. -/
structure JDoc where
  page_content : Json
  metadata : List (String × Json)

/-- The body of the `for commit in commits` loop of
`load_github_commits_json`: extract `sha`, nested `commit.message`,
`commit.author.name` and `commit.author.date` (each defaulting to the empty
string or empty dict), and build one Document. -/
def commitDoc (c : Json) : Except String JDoc := do
  let sha ← c.pyGet "sha" (Json.str "")
  let cf ← c.pyGet "commit" (Json.obj [])
  let msg ← cf.pyGet "message" (Json.str "")
  let af ← cf.pyGet "author" (Json.obj [])
  let author ← af.pyGet "name" (Json.str "")
  let date ← af.pyGet "date" (Json.str "")
  pure ⟨msg, [("sha", sha), ("author", author), ("date", date)]⟩

/-- `load_github_commits_json` after `json.load`: one Document per commit
record, in order. -/
def loadGithubCommitsJson (commits : List Json) : Except String (List JDoc) :=
  commits.mapM commitDoc

/-- Claim-side description of the extraction (the spec scenario wording):
content is the nested commit message; metadata is sha, nested author name,
nested author date. -/
def specCommitDoc (c : Json) : JDoc :=
  let cf := c.lookupD "commit" (Json.obj [])
  let af := cf.lookupD "author" (Json.obj [])
  ⟨cf.lookupD "message" (Json.str ""),
   [("sha", c.lookupD "sha" (Json.str "")),
    ("author", af.lookupD "name" (Json.str "")),
    ("date", af.lookupD "date" (Json.str ""))]⟩

/-- The record shapes on which the chained `.get` calls of the source cannot
raise: the record is a dict and its `commit` / `commit.author` values (when
present) are dicts. -/
def CommitWF (c : Json) : Prop :=
  c.isObjB = true ∧
  (c.lookupD "commit" (Json.obj [])).isObjB = true ∧
  ((c.lookupD "commit" (Json.obj [])).lookupD "author" (Json.obj [])).isObjB = true

/-- `load_all_documents`: the per-file try/except loop.  The filesystem
discovery and the per-file loader calls are external collaborators; each
file's outcome (`loader.load()` result or a raised exception) enters as an
`Except`.  Successful loads are appended in order, failures are logged and
skipped. -/
def loadAllDocuments (fileResults : List (Except String (List JDoc))) : List JDoc :=
  fileResults.foldl
    (fun acc r =>
      match r with
      | Except.ok ds => acc ++ ds
      | Except.error _ => acc)
    []

/-! ### Statements used by the claims -/

/-- The store obtained by a sequence of `add_embeddings` calls that all
supply metadata, starting from a fresh store (stating device for the
amended C2). -/
def addSeqMeta {μ : Type} (pd : String) (calls : List (List Vec × List μ)) : Store μ :=
  addSeq (mkStore pd) (calls.map fun c => (c.1, some c.2))

/-- The commit record of the spec scenario:
`{"sha": "abc123", "commit": {"message": "fix bug",
"author": {"name": "Dana", "date": "2024-01-01"}}}`. -/
def scenarioCommit : Json :=
  Json.obj
    [("sha", Json.str "abc123"),
     ("commit", Json.obj
       [("message", Json.str "fix bug"),
        ("author", Json.obj [("name", Json.str "Dana"), ("date", Json.str "2024-01-01")])])]

/-- The value each `search` result slot evaluates to when its metadata
subscription does not raise (a stating device for the amended C1). -/
def searchResultP {μ : Type} (metadata : List μ) (p : Int × Int) : SearchResult μ :=
  ⟨p.1, p.2,
    if p.1 < (metadata.length : Int) then
      (if 0 ≤ p.1 then metadata.get? p.1.toNat else metadata.getLast?)
    else none⟩

/-- What `search` actually returns on an index with `ntotal ≤ top_k`
(the amended C1 contract): exactly `k` slots; the first `ntotal` slots are
the indexed vectors ordered by ascending distance, each with its raw
distance and its metadata record (`none` if its position has no metadata
entry); the remaining slots are FAISS padding with label `-1`, maximal
distance, and — through Python negative indexing of `metadata[idx]` — the
last metadata record when the metadata list is nonempty. -/
def SearchSpecFull {μ : Type} (metadata : List μ) (ix : FaissIndexL2) (q : Vec) (k : Nat)
    (rs : List (SearchResult μ)) : Prop :=
  rs.length = k ∧
  List.Perm ((rs.take ix.vecs.length).map fun r => r.index)
    ((List.range ix.vecs.length).map Int.ofNat) ∧
  List.Sorted (· ≤ ·) ((rs.take ix.vecs.length).map fun r => r.distance) ∧
  (∀ r ∈ rs.take ix.vecs.length,
      0 ≤ r.index ∧
      (ix.vecs.map (sqDist q)).get? r.index.toNat = some r.distance ∧
      r.metadata = if r.index < (metadata.length : Int) then metadata.get? r.index.toNat else none) ∧
  (∀ r ∈ rs.drop ix.vecs.length,
      r.index = -1 ∧ r.distance = fltMax ∧ r.metadata = metadata.getLast?)

/-! ## Lemmas about the splitter -/

theorem sumLens_nil : sumLens [] = 0 := rfl

theorem sumLens_cons (x : Text) (l : List Text) : sumLens (x :: l) = x.length + sumLens l := by
  simp [sumLens]

theorem sumLens_append (a b : List Text) : sumLens (a ++ b) = sumLens a + sumLens b := by
  simp [sumLens]

theorem sumLens_eq_length_flatten (l : List Text) : sumLens l = l.flatten.length := by
  simp [sumLens, List.length_flatten]

theorem sumLens_eq_zero {l : List Text} (h0 : sumLens l = 0) (hne : ∀ x ∈ l, x ≠ []) :
    l = [] := by
  cases l with
  | nil => rfl
  | cons x xs =>
    exfalso
    have hx := hne x (by simp)
    have h1 : x.length + sumLens xs = 0 := by rw [← sumLens_cons]; exact h0
    exact hx (List.length_eq_zero.mp (by omega))

theorem stripT_length_le (t : Text) : (stripT t).length ≤ t.length := by
  unfold stripT
  rw [List.length_reverse]
  calc ((t.dropWhile pyWS).reverse.dropWhile pyWS).length
      ≤ (t.dropWhile pyWS).reverse.length :=
        (List.dropWhile_sublist _).length_le
    _ = (t.dropWhile pyWS).length := List.length_reverse _
    _ ≤ t.length := (List.dropWhile_sublist _).length_le

theorem icat_nil (l : List Text) : icat [] l = l.flatten := by
  induction l with
  | nil => rfl
  | cons x xs ih =>
    cases xs with
    | nil => simp [icat]
    | cons y ys => simp [icat] at ih ⊢; simp [ih]

/-- A document emitted by `_join_docs` with the empty separator is at most as
long as the combined window it joins. -/
theorem joinDocs_nil_mem {cur : List Text} {c : Text} (h : c ∈ (joinDocs [] cur).toList) :
    c.length ≤ sumLens cur := by
  have hc : c = stripT (icat [] cur) := by
    simp only [joinDocs] at h
    split at h
    · simp at h
    · simp at h; exact h
  rw [hc]
  calc (stripT (icat [] cur)).length ≤ (icat [] cur).length := stripT_length_le _
    _ = sumLens cur := by rw [icat_nil, sumLens_eq_length_flatten]

/-- The popping loop keeps the running total equal to the window weight and
stops only when the next piece fits (or the window emptied). -/
theorem popLoop_spec (cs ov dlen : Nat) (cur : List Text) :
    ∀ total : Nat, total = sumLens cur →
      (popLoop cs ov 0 dlen cur total).2 = sumLens (popLoop cs ov 0 dlen cur total).1 ∧
      ((popLoop cs ov 0 dlen cur total).2 + dlen ≤ cs ∨
        (popLoop cs ov 0 dlen cur total).2 = 0) := by
  induction cur with
  | nil =>
    intro total h
    rw [sumLens_nil] at h
    simp [popLoop, h, sumLens_nil]
  | cons x rest ih =>
    intro total h
    rw [sumLens_cons] at h
    rw [popLoop]
    split
    · exact ih _ (by simp only [ite_self]; omega)
    · rename_i hcond
      exact ⟨by rw [sumLens_cons]; exact h, by omega⟩

/-- Every document emitted by the merge fold stays within `chunk_size`,
provided every piece is strictly shorter than `chunk_size` and the incoming
window already fits. -/
theorem mergeAux_bound (cs ov : Nat) (splits : List Text) :
    ∀ (cur : List Text) (total : Nat),
      (∀ d ∈ splits, d.length < cs) → total = sumLens cur → total ≤ cs →
      ∀ c ∈ mergeAux cs ov [] splits cur total, c.length ≤ cs := by
  induction splits with
  | nil =>
    intro cur total _ hsum hle c hc
    rw [mergeAux] at hc
    have h1 := joinDocs_nil_mem hc
    omega
  | cons d ds ih =>
    intro cur total hlt hsum hle c hc
    have hd : d.length < cs := hlt d (by simp)
    rw [mergeAux] at hc
    simp only [List.length_nil, ite_self, Nat.add_zero] at hc
    split at hc
    · rename_i hover
      split at hc
      · rename_i hemp
        rw [List.isEmpty_iff.mp hemp, sumLens_nil] at hsum
        omega
      · rw [List.mem_append] at hc
        rcases hc with hc | hc
        · have h1 := joinDocs_nil_mem hc
          omega
        · have hps := popLoop_spec cs ov d.length cur total hsum
          refine ih _ _ (fun e he => hlt e (by simp [he])) ?_ ?_ c hc
          · rw [sumLens_append, sumLens_cons, sumLens_nil, hps.1]; omega
          · rcases hps.2 with h2 | h2 <;> omega
    · rename_i hover
      refine ih _ _ (fun e he => hlt e (by simp [he])) ?_ ?_ c hc
      · rw [sumLens_append, sumLens_cons, sumLens_nil]; omega
      · omega

/-- `_merge_splits` on strictly-short pieces produces only documents within
`chunk_size`. -/
theorem mergeSplits_bound (cs ov : Nat) (splits : List Text)
    (h : ∀ d ∈ splits, d.length < cs) :
    ∀ c ∈ mergeSplits cs ov [] splits, c.length ≤ cs :=
  mergeAux_bound cs ov splits [] 0 h rfl (Nat.zero_le cs)

/-- Pieces buffered into a merge run are the short ones. -/
theorem groupSplits_run_lt (cs : Nat) (splits : List Text) :
    ∀ xs, Piece.run xs ∈ groupSplits cs splits → ∀ x ∈ xs, x.length < cs := by
  induction splits with
  | nil => intro xs hxs; simp [groupSplits] at hxs
  | cons s rest ih =>
    intro xs hxs x hx
    rw [groupSplits] at hxs
    split at hxs
    · rename_i hs
      split at hxs
      · rename_i ys t heq
        rcases List.mem_cons.mp hxs with heqxs | hmem
        · cases heqxs
          rcases List.mem_cons.mp hx with rfl | hx2
          · exact hs
          · exact ih ys (by rw [heq]; simp) x hx2
        · exact ih xs (by rw [heq]; exact List.mem_cons_of_mem _ hmem) x hx
      · rcases List.mem_cons.mp hxs with heqxs | hmem
        · cases heqxs
          rcases List.mem_cons.mp hx with rfl | hx2
          · exact hs
          · simp at hx2
        · exact ih xs hmem x hx
    · rcases List.mem_cons.mp hxs with heqxs | hmem
      · cases heqxs
      · exact ih xs hmem x hx

/-- A piece grouped alone is an oversized member of the splits. -/
theorem groupSplits_big (cs : Nat) (splits : List Text) :
    ∀ x, Piece.big x ∈ groupSplits cs splits → cs ≤ x.length ∧ x ∈ splits := by
  induction splits with
  | nil => intro x hx; simp [groupSplits] at hx
  | cons s rest ih =>
    intro x hx
    rw [groupSplits] at hx
    split at hx
    · rename_i hs
      split at hx
      · rename_i ys t heq
        rcases List.mem_cons.mp hx with heqx | hmem
        · cases heqx
        · have := ih x (by rw [heq]; exact List.mem_cons_of_mem _ hmem)
          exact ⟨this.1, List.mem_cons_of_mem _ this.2⟩
      · rcases List.mem_cons.mp hx with heqx | hmem
        · cases heqx
        · have := ih x hmem
          exact ⟨this.1, List.mem_cons_of_mem _ this.2⟩
    · rename_i hs
      rcases List.mem_cons.mp hx with heqx | hmem
      · cases heqx; exact ⟨by omega, by simp⟩
      · have := ih x hmem
        exact ⟨this.1, List.mem_cons_of_mem _ this.2⟩

theorem mem_dropEmpty {l : List Text} {x : Text} : x ∈ dropEmpty l ↔ x ∈ l ∧ x ≠ [] := by
  simp [dropEmpty, List.mem_filter, List.isEmpty_iff]

/-- Hard-cut pieces are single characters. -/
theorem splitKeep_nil_mem {t x : Text} (h : x ∈ splitKeep [] t) : x.length = 1 := by
  simp only [splitKeep, if_pos rfl] at h
  obtain ⟨hmem, _⟩ := mem_dropEmpty.mp h
  obtain ⟨c, _, rfl⟩ := List.mem_map.mp hmem
  rfl

/-- Every chunk produced by `_split_text` is within `chunk_size`, as long as
the hard-cut separator is among the remaining separators. -/
theorem splitText_bound (cs ov : Nat) (seps : List Text) :
    ([] : Text) ∈ seps → 1 ≤ cs →
    ∀ t : Text, ∀ c ∈ splitText cs ov seps t, c.length ≤ cs := by
  induction seps with
  | nil => intro h; exact absurd h (List.not_mem_nil _)
  | cons s rest ih =>
    intro hmem hcs t c hc
    rw [splitText] at hc
    split at hc
    · rw [List.mem_flatMap] at hc
      obtain ⟨g, hg, hcg⟩ := hc
      cases g with
      | run xs =>
        exact mergeSplits_bound cs ov xs (groupSplits_run_lt cs _ xs hg) c hcg
      | big x =>
        have hb := groupSplits_big cs _ x hg
        have hx1 : x.length = 1 := splitKeep_nil_mem hb.2
        have hcx : c = x := by simpa using hcg
        subst hcx
        omega
    · rename_i hs
      have hrest : ([] : Text) ∈ rest := by
        rcases List.mem_cons.mp hmem with h | h
        · exact absurd h.symm hs
        · exact h
      split at hc
      · rw [List.mem_flatMap] at hc
        obtain ⟨g, hg, hcg⟩ := hc
        cases g with
        | run xs =>
          exact mergeSplits_bound cs ov xs (groupSplits_run_lt cs _ xs hg) c hcg
        | big x =>
          have hne : rest.isEmpty = false := by
            cases rest with
            | nil => exact absurd hrest (List.not_mem_nil _)
            | cons a b => rfl
          rw [hne] at hcg
          simp only [Bool.false_eq_true, if_false] at hcg
          exact ih hrest hcs x c hcg
      · exact ih hrest hcs t c hc

theorem breakOnSep_some {sep : Text} :
    ∀ {t p r : Text}, breakOnSep sep t = some (p, r) → p ++ (sep ++ r) = t := by
  intro t
  induction t with
  | nil => intro p r h; simp [breakOnSep] at h
  | cons c rest ih =>
    intro p r h
    rw [breakOnSep] at h
    split at h
    · rename_i hpre
      obtain ⟨q, hq⟩ := List.isPrefixOf_iff_prefix.mp hpre
      simp only [Option.some.injEq, Prod.mk.injEq] at h
      obtain ⟨h1, h2⟩ := h
      subst h1
      subst h2
      rw [← hq, List.drop_left]
      simp
    · cases hb : breakOnSep sep rest with
      | none => rw [hb] at h; simp at h
      | some pr =>
        rw [hb] at h
        simp only [Option.map_some', Option.some.injEq, Prod.mk.injEq] at h
        obtain ⟨h1, h2⟩ := h
        subst h1
        subst h2
        have := ih hb
        simpa using this

theorem splitPartsF_ne_nil (sep : Text) (fuel : Nat) (t : Text) :
    splitPartsF sep fuel t ≠ [] := by
  cases fuel with
  | zero => simp [splitPartsF]
  | succ n =>
    rw [splitPartsF]
    cases breakOnSep sep t with
    | none => simp
    | some pr => simp

/-- With sufficient fuel, joining the split pieces with the separator
reconstructs the text. -/
theorem icat_splitPartsF {sep : Text} (hsep : sep ≠ []) :
    ∀ (fuel : Nat) (t : Text), t.length ≤ fuel → icat sep (splitPartsF sep fuel t) = t := by
  intro fuel
  induction fuel with
  | zero =>
    intro t ht
    have h0 : t = [] := List.length_eq_zero.mp (by omega)
    subst h0
    rfl
  | succ n ih =>
    intro t ht
    rw [splitPartsF]
    cases hb : breakOnSep sep t with
    | none => rfl
    | some pr =>
      obtain ⟨p, r⟩ := pr
      have hrec := breakOnSep_some hb
      have hs1 : 1 ≤ sep.length := by
        cases sep with
        | nil => exact absurd rfl hsep
        | cons a b => simp
      have hlen : r.length ≤ n := by
        have hsum : p.length + (sep.length + r.length) = t.length := by
          rw [← hrec]; simp
        omega
      cases hsp : splitPartsF sep n r with
      | nil => exact absurd hsp (splitPartsF_ne_nil sep n r)
      | cons a as =>
        show icat sep (p :: splitPartsF sep n r) = t
        rw [hsp, show icat sep (p :: a :: as) = p ++ sep ++ icat sep (a :: as) from rfl,
          ← hsp, ih r hlen]
        simpa [List.append_assoc] using hrec

theorem flatten_dropEmpty (l : List Text) : (dropEmpty l).flatten = l.flatten := by
  induction l with
  | nil => rfl
  | cons x xs ih =>
    by_cases hx : x.isEmpty
    · rw [List.isEmpty_iff.mp hx]
      simp [dropEmpty, List.filter_cons] at ih ⊢
      exact ih
    · simp only [dropEmpty, List.filter_cons, hx] at ih ⊢
      simp [ih]

theorem dropEmpty_eq_self {l : List Text} (h : ∀ x ∈ l, x ≠ []) : dropEmpty l = l := by
  rw [dropEmpty, List.filter_eq_self]
  intro a ha
  simp [List.isEmpty_iff, h a ha]

theorem flatten_map_singleton (t : Text) : (t.map fun c => [c]).flatten = t := by
  induction t with
  | nil => rfl
  | cons c rest ih => simp [ih]

theorem flatten_consSepMap (sep : Text) :
    ∀ (ps : List Text) (p : Text),
      (p :: ps.map fun x => sep ++ x).flatten = icat sep (p :: ps) := by
  intro ps
  induction ps with
  | nil => intro p; simp [icat]
  | cons q qs ih =>
    intro p
    rw [icat, ← ih q]
    simp [List.append_assoc]

/-- Keep-separator splitting loses no characters: the pieces concatenate
back to the text. -/
theorem splitKeep_flatten (sep t : Text) : (splitKeep sep t).flatten = t := by
  rw [splitKeep, flatten_dropEmpty]
  split
  · exact flatten_map_singleton t
  · rename_i hsep
    cases hsp : splitPartsF sep t.length t with
    | nil => exact absurd hsp (splitPartsF_ne_nil sep t.length t)
    | cons p ps =>
      rw [flatten_consSepMap, ← hsp, icat_splitPartsF hsep t.length t (le_refl _)]

theorem splitKeep_mem_ne_nil {sep t x : Text} (h : x ∈ splitKeep sep t) : x ≠ [] :=
  (mem_dropEmpty.mp h).2

/-- The merge fold never flushes when everything fits in one window: it emits
the single stripped join. -/
theorem mergeAux_noflush (cs ov : Nat) :
    ∀ (splits cur : List Text) (total : Nat), total = sumLens cur →
      total + sumLens splits ≤ cs →
      mergeAux cs ov [] splits cur total = (joinDocs [] (cur ++ splits)).toList := by
  intro splits
  induction splits with
  | nil => intro cur total _ _; rw [mergeAux, List.append_nil]
  | cons d ds ih =>
    intro cur total h1 h2
    rw [sumLens_cons] at h2
    rw [mergeAux]
    simp only [List.length_nil, ite_self, Nat.add_zero]
    rw [if_neg (by omega)]
    rw [ih (cur ++ [d]) _ (by rw [sumLens_append, sumLens_cons, sumLens_nil]; omega) (by omega)]
    rw [List.append_assoc, List.singleton_append]

/-- `_join_docs` with the empty separator on pieces flattening to a nonempty
stripped text yields exactly that text. -/
theorem joinDocs_eval {splits : List Text} {t : Text}
    (hfl : splits.flatten = t) (hstrip : stripT t = t) (hne : t ≠ []) :
    joinDocs [] splits = some t := by
  simp only [joinDocs, icat_nil, hfl, hstrip]
  rw [if_neg hne]

theorem groupSplits_allgood (cs : Nat) :
    ∀ l : List Text, l ≠ [] → (∀ x ∈ l, x.length < cs) →
      groupSplits cs l = [Piece.run l] := by
  intro l
  induction l with
  | nil => intro h; exact absurd rfl h
  | cons s rest ih =>
    intro _ hgood
    rw [groupSplits, if_pos (hgood s (by simp))]
    cases rest with
    | nil => rfl
    | cons a b =>
      rw [ih (by simp) (fun x hx => hgood x (by simp [hx]))]

/-- A member at least as heavy as the whole list of nonempty pieces is the
only piece. -/
theorem single_of_heavy {splits : List Text} {x : Text}
    (hx : x ∈ splits) (hne : ∀ y ∈ splits, y ≠ [])
    (hheavy : sumLens splits ≤ x.length) : splits = [x] := by
  obtain ⟨s, t, rfl⟩ := List.append_of_mem hx
  rw [sumLens_append, sumLens_cons] at hheavy
  have hs0 : s = [] := sumLens_eq_zero (by omega) (fun y hy => hne y (by simp [hy]))
  have ht0 : t = [] := sumLens_eq_zero (by omega) (fun y hy => hne y (by simp [hy]))
  subst hs0
  subst ht0
  rfl

/-- `_split_text` on a nonempty, already-stripped text of length at most
`chunk_size` returns that text as the single chunk. -/
theorem splitText_short (cs ov : Nat) (seps : List Text) :
    ([] : Text) ∈ seps →
    ∀ t : Text, t ≠ [] → stripT t = t → t.length ≤ cs →
      splitText cs ov seps t = [t] := by
  induction seps with
  | nil => intro h; exact absurd h (List.not_mem_nil _)
  | cons s rest ih =>
    intro hmem t hne hstrip hlen
    have ht1 : 1 ≤ t.length := by
      cases t with
      | nil => exact absurd rfl hne
      | cons a b => simp
    rw [splitText]
    split
    · rename_i hs
      by_cases hc : 1 < cs
      · have hsk : splitKeep [] t = t.map fun c => [c] := by
          rw [splitKeep, if_pos rfl]
          exact dropEmpty_eq_self (by intro x hx; obtain ⟨c, _, rfl⟩ := List.mem_map.mp hx; simp)
        rw [hsk, groupSplits_allgood cs _ (by cases t with | nil => exact absurd rfl hne | cons a b => simp)
          (by intro x hx; obtain ⟨c, _, rfl⟩ := List.mem_map.mp hx; simp; omega)]
        simp only [List.flatMap_cons, List.flatMap_nil, List.append_nil]
        rw [mergeSplits, mergeAux_noflush cs ov _ [] 0 rfl
          (by rw [sumLens_eq_length_flatten, flatten_map_singleton]; omega)]
        rw [List.nil_append, joinDocs_eval (flatten_map_singleton t) hstrip hne]
        rfl
      · have hcs : cs = 1 := by omega
        subst hcs
        have ht : ∃ c : Char, t = [c] := by
          cases t with
          | nil => exact absurd rfl hne
          | cons a b =>
            cases b with
            | nil => exact ⟨a, rfl⟩
            | cons a2 b2 => simp at hlen
        obtain ⟨c, rfl⟩ := ht
        rfl
    · rename_i hs
      have hrest : ([] : Text) ∈ rest := by
        rcases List.mem_cons.mp hmem with h | h
        · exact absurd h.symm hs
        · exact h
      have hrestne : rest.isEmpty = false := by
        cases rest with
        | nil => exact absurd hrest (List.not_mem_nil _)
        | cons a b => rfl
      split
      · have hfl := splitKeep_flatten s t
        have hsum : sumLens (splitKeep s t) = t.length := by
          rw [sumLens_eq_length_flatten, hfl]
        by_cases hall : ∀ x ∈ splitKeep s t, x.length < cs
        · have hskne : splitKeep s t ≠ [] := by
            intro h0
            rw [h0] at hfl
            exact hne hfl.symm
          rw [groupSplits_allgood cs _ hskne hall]
          simp only [List.flatMap_cons, List.flatMap_nil, List.append_nil]
          rw [mergeSplits, mergeAux_noflush cs ov _ [] 0 rfl (by omega)]
          rw [List.nil_append, joinDocs_eval hfl hstrip hne]
          rfl
        · push_neg at hall
          obtain ⟨x, hxmem, hxbig⟩ := hall
          have hsingle : splitKeep s t = [x] :=
            single_of_heavy hxmem (fun y hy => splitKeep_mem_ne_nil hy) (by omega)
          have hxt : x = t := by
            rw [hsingle] at hfl
            simpa using hfl
          subst hxt
          rw [hsingle, groupSplits, if_neg (by omega)]
          simp only [groupSplits, List.flatMap_cons, List.flatMap_nil, List.append_nil]
          rw [hrestne]
          simp only [Bool.false_eq_true, if_false]
          exact ih hrest x hne hstrip hlen
      · exact ih hrest t hne hstrip hlen

/-! ## Claim theorems -/

/-- **C6** (confirmed).  For every document sequence and parameters with
`0 ≤ chunk_overlap < chunk_size`, every chunk produced by `chunk_documents`
(which tries the separators in priority order: paragraph break, line break,
space, hard cut — the list `fullSeps`) has content length at most
`chunk_size` characters. -/
theorem C6_chunk_length_bound {μ : Type} (cs ov : Nat) (docs : List (LCDoc μ))
    (hov : ov < cs) :
    ∀ chunk ∈ chunkDocuments cs ov docs, chunk.page_content.length ≤ cs := by
  intro chunk hchunk
  rw [chunkDocuments, List.mem_flatMap] at hchunk
  obtain ⟨d, _, hd⟩ := hchunk
  obtain ⟨c, hc, rfl⟩ := List.mem_map.mp hd
  exact splitText_bound cs ov fullSeps (by simp [fullSeps]) (by omega) _ c hc

/-- Witness for C6 at a concrete input: chunking `"hello world"` with
`chunk_size = 5`, `chunk_overlap = 2` produces the chunk `"worl"`, whose
length is within the bound. -/
theorem C6_chunk_length_bound_witness :
    2 < 5 ∧
    (⟨['w', 'o', 'r', 'l'], 0⟩ : LCDoc Nat) ∈
      chunkDocuments 5 2 [⟨"hello world".toList, 0⟩] ∧
    (['w', 'o', 'r', 'l'] : Text).length ≤ 5 :=
  ⟨by decide, by decide,
    C6_chunk_length_bound 5 2 [⟨"hello world".toList, 0⟩] (by decide)
      ⟨['w', 'o', 'r', 'l'], 0⟩ (by decide)⟩

/-! ## Lemmas about the vector store -/

theorem mapM_ok_of_forall {α β : Type} (f : α → Except String β) (g : α → β) :
    ∀ l : List α, (∀ x ∈ l, f x = Except.ok (g x)) → l.mapM f = Except.ok (l.map g) := by
  intro l
  induction l with
  | nil => intro _; rfl
  | cons a as ih =>
    intro h
    rw [List.mapM_cons, h a (by simp), ih (fun x hx => h x (by simp [hx]))]
    rfl

theorem pairsAux_length (q : Vec) :
    ∀ (vs : List Vec) (i : Nat), (pairsAux q vs i).length = vs.length := by
  intro vs
  induction vs with
  | nil => intro i; rfl
  | cons v rest ih => intro i; rw [pairsAux]; simp [ih]

theorem pairsAux_map_fst (q : Vec) :
    ∀ (vs : List Vec) (i : Nat), (pairsAux q vs i).map Prod.fst = List.range' i vs.length := by
  intro vs
  induction vs with
  | nil => intro i; rfl
  | cons v rest ih =>
    intro i
    rw [pairsAux, List.map_cons, ih, List.length_cons, List.range'_succ]

theorem pairsAux_mem (q : Vec) :
    ∀ (vs : List Vec) (i j : Nat) (dd : Int), (j, dd) ∈ pairsAux q vs i →
      i ≤ j ∧ (vs.map (sqDist q)).get? (j - i) = some dd := by
  intro vs
  induction vs with
  | nil => intro i j dd h; simp [pairsAux] at h
  | cons v rest ih =>
    intro i j dd h
    rw [pairsAux] at h
    rcases List.mem_cons.mp h with heq | hmem
    · have h1 : j = i := congrArg Prod.fst heq
      have h2 : dd = sqDist q v := congrArg Prod.snd heq
      subst h1
      subst h2
      simp
    · obtain ⟨hle, hget⟩ := ih (i + 1) j dd hmem
      refine ⟨by omega, ?_⟩
      have hji : j - i = (j - (i + 1)) + 1 := by omega
      rw [List.map_cons, hji, List.get?_cons_succ]
      exact hget

/-- Every `search` slot is either a genuine ranked entry or the FAISS
padding pair (which exists only when the index is smaller than `top_k`). -/
theorem faissSearch_mem {ix : FaissIndexL2} {q : Vec} {k : Nat} {p : Int × Int}
    (hp : p ∈ faissSearch ix q k) :
    (∃ pr ∈ List.insertionSort distLe (pairsAux q ix.vecs 0), p = ((pr.1 : Int), pr.2)) ∨
      (ix.vecs.length < k ∧ p = (-1, fltMax)) := by
  rw [faissSearch] at hp
  rcases List.mem_append.mp hp with h | h
  · obtain ⟨pr, hpr, rfl⟩ := List.mem_map.mp h
    exact Or.inl ⟨pr, List.mem_of_mem_take hpr, rfl⟩
  · right
    rw [List.mem_replicate] at h
    refine ⟨?_, h.2⟩
    have hlen : ((List.insertionSort distLe (pairsAux q ix.vecs 0)).take k).length =
        min k ix.vecs.length := by
      rw [List.length_take, List.length_insertionSort, pairsAux_length]
    have := h.1
    rw [List.length_map, hlen] at this
    omega

/-- When the metadata list is nonempty, or there are no padding slots at
all, no metadata subscription raises, and `search` returns one result per
slot. -/
theorem searchResults_ok {μ : Type} (metadata : List μ) (ix : FaissIndexL2) (q : Vec) (k : Nat)
    (hm : metadata ≠ [] ∨ k ≤ ix.vecs.length) :
    searchResults metadata ix q k =
      Except.ok ((faissSearch ix q k).map (searchResultP metadata)) := by
  rw [searchResults]
  apply mapM_ok_of_forall
  intro p hp
  by_cases hg : p.1 < (metadata.length : Int)
  · by_cases hpos : 0 ≤ p.1
    · have hlt : p.1.toNat < metadata.length := by omega
      obtain ⟨m, hm2⟩ : ∃ m, metadata.get? p.1.toNat = some m := by
        cases hgot : metadata.get? p.1.toNat with
        | none =>
          have := List.get?_eq_none.mp hgot
          omega
        | some m => exact ⟨m, rfl⟩
      simp only [searchResultP, pyIndexE, if_pos hg, if_pos hpos, hm2]
      rfl
    · have hmne : metadata ≠ [] := by
        rcases faissSearch_mem hp with ⟨pr, _, rfl⟩ | ⟨hlt, rfl⟩
        · exact absurd (Int.ofNat_nonneg pr.1) hpos
        · rcases hm with h | h
          · exact h
          · omega
      obtain ⟨m, hm2⟩ : ∃ m, metadata.getLast? = some m := by
        cases hgot : metadata.getLast? with
        | none => exact absurd (List.getLast?_eq_none_iff.mp hgot) hmne
        | some m => exact ⟨m, rfl⟩
      simp only [searchResultP, pyIndexE, if_pos hg, if_neg hpos, hm2]
      rfl
  · simp [searchResultP, hg]

/-- The amended C1 contract holds of the per-slot results whenever
`ntotal ≤ top_k`. -/
theorem searchSpecFull_holds {μ : Type} (metadata : List μ) (ix : FaissIndexL2) (q : Vec)
    (k : Nat) (hk : ix.vecs.length ≤ k) :
    SearchSpecFull metadata ix q k ((faissSearch ix q k).map (searchResultP metadata)) := by
  have hslen : (List.insertionSort distLe (pairsAux q ix.vecs 0)).length = ix.vecs.length := by
    rw [List.length_insertionSort, pairsAux_length]
  have hfs : faissSearch ix q k =
      (List.insertionSort distLe (pairsAux q ix.vecs 0)).map (fun pr => ((pr.1 : Int), pr.2)) ++
        List.replicate (k - ix.vecs.length) (-1, fltMax) := by
    rw [faissSearch, List.take_of_length_le (by omega), List.length_map, hslen]
  rw [hfs, List.map_append, List.map_map, List.map_replicate]
  set sorted := List.insertionSort distLe (pairsAux q ix.vecs 0) with hsorteddef
  have hA : (sorted.map (searchResultP metadata ∘ fun pr => ((pr.1 : Int), pr.2))).length =
      ix.vecs.length := by
    rw [List.length_map, hslen]
  have htake : ((sorted.map (searchResultP metadata ∘ fun pr => ((pr.1 : Int), pr.2))) ++
        List.replicate (k - ix.vecs.length) (searchResultP metadata (-1, fltMax))).take
          ix.vecs.length =
      sorted.map (searchResultP metadata ∘ fun pr => ((pr.1 : Int), pr.2)) := by
    rw [← hA, List.take_left]
  have hdrop : ((sorted.map (searchResultP metadata ∘ fun pr => ((pr.1 : Int), pr.2))) ++
        List.replicate (k - ix.vecs.length) (searchResultP metadata (-1, fltMax))).drop
          ix.vecs.length =
      List.replicate (k - ix.vecs.length) (searchResultP metadata (-1, fltMax)) := by
    rw [← hA, List.drop_left]
  refine ⟨?_, ?_, ?_, ?_, ?_⟩
  · rw [List.length_append, List.length_map, List.length_replicate, hslen]
    omega
  · rw [htake, List.map_map]
    have hcomp : ((fun r : SearchResult μ => r.index) ∘ searchResultP metadata ∘
        fun pr : Nat × Int => ((pr.1 : Int), pr.2)) =
        fun pr : Nat × Int => Int.ofNat pr.1 := rfl
    rw [hcomp]
    have hperm := (List.perm_insertionSort distLe (pairsAux q ix.vecs 0)).map
      (fun pr : Nat × Int => Int.ofNat pr.1)
    have heq : List.Perm
        ((pairsAux q ix.vecs 0).map (fun pr : Nat × Int => Int.ofNat pr.1))
        ((List.range ix.vecs.length).map Int.ofNat) := by
      rw [show (fun pr : Nat × Int => Int.ofNat pr.1) = (Int.ofNat ∘ Prod.fst) from rfl,
        ← List.map_map, pairsAux_map_fst, List.range_eq_range']
    exact hperm.trans heq
  · rw [htake, List.map_map]
    have hsorted : List.Sorted distLe sorted := List.sorted_insertionSort distLe _
    exact List.pairwise_map.mpr (hsorted.imp fun h => h)
  · intro r hr
    rw [htake] at hr
    obtain ⟨pr, hpr, rfl⟩ := List.mem_map.mp hr
    have hpairs : pr ∈ pairsAux q ix.vecs 0 := by
      rw [hsorteddef] at hpr
      exact (List.mem_insertionSort distLe).mp hpr
    obtain ⟨j, dd⟩ := pr
    obtain ⟨-, hget⟩ := pairsAux_mem q ix.vecs 0 j dd hpairs
    rw [Nat.sub_zero] at hget
    refine ⟨by simp [searchResultP], ?_, ?_⟩
    · simpa [searchResultP, Int.toNat_ofNat] using hget
    · simp [searchResultP, Int.ofNat_nonneg]
  · intro r hr
    rw [hdrop] at hr
    have hreq := List.eq_of_mem_replicate hr
    subst hreq
    refine ⟨rfl, rfl, ?_⟩
    have hneg : (-1 : Int) < (metadata.length : Int) := by
      have : (0 : Int) ≤ (metadata.length : Int) := Int.ofNat_nonneg _
      omega
    simp [searchResultP, hneg]

/-! ## Claim theorems for the vector store and orchestrator -/

/-- **C1 counterexample**.  A store holding a single vector (with one
metadata record), searched with `top_k = 2`, returns a list of 2 results —
not "exactly all" 1 vector as the claim requires for an index smaller than
`top_k`: FAISS pads the answer to `top_k` slots. -/
theorem C1_counterexample :
    (storeSearch (⟨"d", some ⟨[[0]]⟩, ["m0"]⟩ : Store String) [0] 2).toOption.map
        List.length = some 2 ∧
    (some 2 : Option Nat) ≠ some 1 := by
  constructor
  · rfl
  · decide

/-- **C1** (corrected, amended).  `search` on a built index with
`ntotal ≤ top_k` (and a nonempty metadata list, or no padding at all; with
empty metadata and `ntotal < top_k` the padding slot raises `IndexError`
instead) returns exactly `top_k` results, of which the first `ntotal` are
the indexed vectors ordered by ascending distance, each carrying its raw
squared-L2 distance and its metadata record (or `None` if its position has
no metadata entry), while the remaining `top_k - ntotal` slots are FAISS
padding entries with index `-1`, maximal distance, and — via Python
negative indexing — the **last** metadata record rather than a null
marker. -/
theorem C1_search_contract {μ : Type} (st : Store μ) (ix : FaissIndexL2) (q : Vec) (k : Nat)
    (hix : st.index = some ix) (hk : ix.vecs.length ≤ k)
    (hm : st.metadata ≠ [] ∨ k ≤ ix.vecs.length) :
    storeSearch st q k =
      Except.ok ((faissSearch ix q k).map (searchResultP st.metadata)) ∧
    SearchSpecFull st.metadata ix q k ((faissSearch ix q k).map (searchResultP st.metadata)) := by
  constructor
  · rw [storeSearch, hix]
    exact searchResults_ok st.metadata ix q k hm
  · exact searchSpecFull_holds st.metadata ix q k hk

/-- Witness for the amended C1 on a one-vector store searched with
`top_k = 2`. -/
theorem C1_search_contract_witness :
    SearchSpecFull ["m0"] ⟨[[0]]⟩ [0] 2
      ((faissSearch ⟨[[0]]⟩ [0] 2).map (searchResultP ["m0"])) :=
  (C1_search_contract (⟨"d", some ⟨[[0]]⟩, ["m0"]⟩ : Store String) ⟨[[0]]⟩ [0] 2 rfl
    (by decide) (Or.inl (by decide))).2

/-- **C7 counterexample**.  The document `" a"` has length `2 ≤ 10`, yet
chunking it (with `chunk_size = 10`, `chunk_overlap = 2`) yields the single
chunk `"a"`, not a chunk equal to the original content: the splitter strips
surrounding whitespace from every emitted chunk. -/
theorem C7_counterexample :
    (chunkDocuments 10 2 [⟨[' ', 'a'], 0⟩] : List (LCDoc Nat)).map LCDoc.page_content =
      [['a']] ∧
    (chunkDocuments 10 2 [⟨[' ', 'a'], 0⟩] : List (LCDoc Nat)).map LCDoc.page_content ≠
      [[' ', 'a']] := by
  constructor
  · decide
  · decide

/-- **C7** (corrected).  For every document whose content has length at most
`chunk_size`, is nonempty, and carries no leading or trailing whitespace
(so that the splitter's whitespace stripping is the identity on it),
`chunk_documents` yields exactly one chunk whose content equals the original
document content.  Documents with surrounding whitespace come back stripped,
and empty or all-whitespace documents produce no chunk at all. -/
theorem C7_short_doc_single_chunk {μ : Type} (cs ov : Nat) (d : LCDoc μ)
    (hov : ov < cs) (hne : d.page_content ≠ [])
    (hstrip : stripT d.page_content = d.page_content)
    (hlen : d.page_content.length ≤ cs) :
    chunkDocuments cs ov [d] = [⟨d.page_content, d.metadata⟩] := by
  have _hcs : 1 ≤ cs := by omega
  rw [chunkDocuments]
  simp only [List.flatMap_cons, List.flatMap_nil, List.append_nil]
  rw [splitText_short cs ov fullSeps (by simp [fullSeps]) _ hne hstrip hlen]
  rfl

/-- Witness for the corrected C7: the 7-character document `"fix bug"` with
`chunk_size = 8`, `chunk_overlap = 0` yields exactly itself as the single
chunk. -/
theorem C7_short_doc_single_chunk_witness :
    (0 < 8 ∧ ("fix bug".toList : Text) ≠ [] ∧ stripT "fix bug".toList = "fix bug".toList ∧
      ("fix bug".toList : Text).length ≤ 8) ∧
    chunkDocuments 8 0 [(⟨"fix bug".toList, 3⟩ : LCDoc Nat)] = [⟨"fix bug".toList, 3⟩] :=
  ⟨⟨by decide, by decide, by decide, by decide⟩,
    C7_short_doc_single_chunk 8 0 ⟨"fix bug".toList, 3⟩ (by decide) (by decide) (by decide)
      (by decide)⟩

/-! ## Lemmas for `add_embeddings` sequences -/

theorem addEmbeddings_metadata {μ : Type} (st : Store μ) (e : List Vec)
    (m : Option (List μ)) :
    (addEmbeddings st e m).metadata = st.metadata ++
      (match m with
       | none => []
       | some l => if l.isEmpty then [] else l) := by
  cases m with
  | none => simp [addEmbeddings]
  | some l =>
    by_cases hl : l.isEmpty <;> simp [addEmbeddings, hl]

theorem addSeq_state {μ : Type} (calls : List (List Vec × Option (List μ))) :
    ∀ st : Store μ,
      vecsOf (addSeq st calls) = vecsOf st ++ (calls.map fun c => c.1).flatten ∧
      (addSeq st calls).metadata = st.metadata ++
        (calls.map fun c =>
          (match c.2 with
           | none => []
           | some l => if l.isEmpty then [] else l)).flatten := by
  induction calls with
  | nil => intro st; simp [addSeq]
  | cons c cs ih =>
    intro st
    have hstep : addSeq st (c :: cs) = addSeq (addEmbeddings st c.1 c.2) cs := rfl
    rw [hstep]
    obtain ⟨ihv, ihm⟩ := ih (addEmbeddings st c.1 c.2)
    constructor
    · rw [ihv]
      have hv : vecsOf (addEmbeddings st c.1 c.2) = vecsOf st ++ c.1 := rfl
      rw [hv]
      simp [List.append_assoc]
    · rw [ihm, addEmbeddings_metadata]
      simp [List.append_assoc]

theorem zip_flatten_eq {μ : Type} :
    ∀ calls : List (List Vec × List μ),
      (∀ c ∈ calls, c.1.length = c.2.length) →
      ((calls.map fun c => c.1).flatten).zip ((calls.map fun c => c.2).flatten) =
        (calls.map fun c => c.1.zip c.2).flatten := by
  intro calls
  induction calls with
  | nil => intro _; rfl
  | cons c cs ih =>
    intro h
    simp only [List.map_cons, List.flatten_cons]
    rw [List.zip_append (h c (by simp)), ih (fun x hx => h x (by simp [hx]))]

/-! ## Remaining claim theorems -/

/-- **C2 counterexample**.  One `add_embeddings` call with a single vector
and the default `metadatas=None` leaves `len(metadata) = 0` while the index
holds 1 vector, breaking the claimed invariant. -/
theorem C2_counterexample :
    vecCount (addEmbeddings (mkStore "d" : Store String) [[0]] none) = 1 ∧
    (addEmbeddings (mkStore "d" : Store String) [[0]] none).metadata.length = 0 ∧
    (0 : Nat) ≠ 1 :=
  ⟨rfl, rfl, by decide⟩

/-- **C2** (corrected, amended).  After any sequence of `add_embeddings`
calls in which every call supplies a nonempty metadata list of the same
length as its vector batch, the metadata count equals the total number of
vectors in the index, vectors and metadata are the concatenations of the
batches in call order, and position `i` pairs each vector with the record
appended by the same call.  (A call with the default `metadatas=None`, or
an empty metadata list next to nonempty vectors, silently appends vectors
without metadata and breaks the invariant.) -/
theorem C2_metadata_invariant {μ : Type} (pd : String) (calls : List (List Vec × List μ))
    (h : ∀ c ∈ calls, c.1.length = c.2.length ∧ c.2 ≠ []) :
    (addSeqMeta pd calls).metadata.length = vecCount (addSeqMeta pd calls) ∧
    vecsOf (addSeqMeta pd calls) = (calls.map fun c => c.1).flatten ∧
    (addSeqMeta pd calls).metadata = (calls.map fun c => c.2).flatten ∧
    (vecsOf (addSeqMeta pd calls)).zip (addSeqMeta pd calls).metadata =
      (calls.map fun c => c.1.zip c.2).flatten := by
  have hstate := addSeq_state (calls.map fun c => (c.1, some c.2)) (mkStore pd)
  have hv : vecsOf (addSeqMeta pd calls) = (calls.map fun c => c.1).flatten := by
    rw [addSeqMeta, hstate.1]
    simp [vecsOf, mkStore, List.map_map]
    rfl
  have hmet : (addSeqMeta pd calls).metadata = (calls.map fun c => c.2).flatten := by
    rw [addSeqMeta, hstate.2]
    simp only [mkStore, List.nil_append, List.map_map]
    congr 1
    apply List.map_congr_left
    intro c hc
    have hne := (h c hc).2
    simp [Function.comp, hne]
  refine ⟨?_, hv, hmet, ?_⟩
  · rw [hmet, vecCount, hv, List.length_flatten, List.length_flatten,
      List.map_map, List.map_map]
    congr 1
    apply List.map_congr_left
    intro c hc
    exact ((h c hc).1).symm
  · rw [hv, hmet]
    exact zip_flatten_eq calls (fun c hc => (h c hc).1)

/-- Witness for the amended C2: two aligned `add_embeddings` calls. -/
theorem C2_metadata_invariant_witness :
    (∀ c ∈ [([[(0 : Int)], [1]], ["m0", "m1"]), ([[2]], ["m2"])],
      c.1.length = c.2.length ∧ c.2 ≠ []) ∧
    (addSeqMeta "d" [([[(0 : Int)], [1]], ["m0", "m1"]), ([[2]], ["m2"])]).metadata.length =
      vecCount (addSeqMeta "d" [([[(0 : Int)], [1]], ["m0", "m1"]), ([[2]], ["m2"])]) :=
  ⟨by decide,
    (C2_metadata_invariant "d" [([[(0 : Int)], [1]], ["m0", "m1"]), ([[2]], ["m2"])]
      (by decide)).1⟩

/-- **C3** (code bug in the source).  `add_embeddings` performs no length
check whatsoever: a call with 2 vectors and 1 metadata record is accepted
without raising, silently leaving the counts misaligned (2 vectors against
1 metadata record) — where the claim (and spec §4.3) requires the call to
fail loudly. -/
theorem C3_no_precondition_check :
    vecCount (addEmbeddings (mkStore "d" : Store String) [[0], [1]] (some ["m0"])) = 2 ∧
    (addEmbeddings (mkStore "d" : Store String) [[0], [1]] (some ["m0"])).metadata.length = 1 ∧
    (2 : Nat) ≠ 1 :=
  ⟨rfl, rfl, by decide⟩

/-- **C4 counterexample**.  On a store of two vectors whose metadata records
both lack a `"text"` field, the assembled context is the nonempty separator
string `"\n\n"`, so `search_and_summarize` invokes the external generator
and returns its output — not the fixed no-results message the claim
requires when every retrieved metadata lacks `"text"`. -/
theorem C4_counterexample :
    searchAndSummarize (fun _ => [0]) (fun _ => "LLM OUTPUT")
      (⟨"d", some ⟨[[0], [1]]⟩, [[("a", "x")], [("b", "y")]]⟩ : Store MetaD) "q" 2 =
      Except.ok "LLM OUTPUT" ∧
    "LLM OUTPUT" ≠ noResultsMsg := by
  constructor
  · rfl
  · decide

/-- **C4** (corrected, amended).  When retrieval returns without raising,
`search_and_summarize` answers the fixed no-results message exactly when
the assembled context — the blank-line join of the `"text"` fields of the
results whose metadata is truthy (neither `None` nor an empty dict, the
`if r["metadata"]` filter) — is the empty string, and then does so without
consulting the generator; otherwise it returns the generator's output on
the assembled prompt verbatim.  (The original claim fails in two ways: two
or more results whose metadata is a nonempty dict lacking `"text"` join to
the nonempty separator string and DO invoke the generator; and on an empty
index with an empty metadata list retrieval raises `IndexError` through
the `metadata[-1]` padding lookup, so no fixed message is returned there
either.) -/
theorem C4_fixed_message_iff_empty_context (embed : String → Vec)
    (llm llm2 : String → String) (st : Store MetaD) (query : String) (k : Nat)
    (results : List (SearchResult MetaD))
    (hq : storeQuery embed st query k = Except.ok results) :
    searchAndSummarize embed llm st query k =
      Except.ok (if contextOfR results = "" then noResultsMsg
        else llm (buildPrompt query (contextOfR results))) ∧
    (contextOfR results = "" →
      searchAndSummarize embed llm st query k = searchAndSummarize embed llm2 st query k) := by
  have hmain : ∀ l : String → String,
      searchAndSummarize embed l st query k =
        Except.ok (if contextOfR results = "" then noResultsMsg
          else l (buildPrompt query (contextOfR results))) := by
    intro l
    rw [searchAndSummarize, hq]
    rfl
  refine ⟨hmain llm, fun hctx => ?_⟩
  rw [hmain llm, hmain llm2, hctx]
  simp

/-- Witness for the amended C4: a store with one vector and one metadata
record lacking `"text"` retrieves a single empty text, the context joins to
the empty string, and the fixed message is returned. -/
theorem C4_fixed_message_iff_empty_context_witness :
    storeQuery (fun _ => [(0 : Int)]) (⟨"d", some ⟨[[0]]⟩, [[("a", "x")]]⟩ : Store MetaD)
      "q" 1 = Except.ok [⟨0, 0, some [("a", "x")]⟩] ∧
    searchAndSummarize (fun _ => [(0 : Int)]) (fun _ => "LLM")
      (⟨"d", some ⟨[[0]]⟩, [[("a", "x")]]⟩ : Store MetaD) "q" 1 =
      Except.ok noResultsMsg := by
  constructor
  · rfl
  · have h := (C4_fixed_message_iff_empty_context (fun _ => [(0 : Int)]) (fun _ => "LLM")
      (fun _ => "X") (⟨"d", some ⟨[[0]]⟩, [[("a", "x")]]⟩ : Store MetaD) "q" 1
      [⟨0, 0, some [("a", "x")]⟩] rfl).1
    rw [h]
    rfl

/-- **C5** (confirmed).  Round-trip persistence: saving a populated store
and loading the saved pair into a fresh store pointed at the same persist
directory reproduces the vector count, the metadata count, and the exact
`search` behaviour — same results, same order, same indices — for every
query vector and every `top_k`. -/
theorem C5_save_load_roundtrip {μ : Type} (st : Store μ) (ix : FaissIndexL2)
    (sv : SavedStore μ) (hix : st.index = some ix) (hsv : saveStore st = Except.ok sv) :
    vecCount (loadStore sv (mkStore st.persistDir)) = vecCount st ∧
    (loadStore sv (mkStore st.persistDir)).metadata.length = st.metadata.length ∧
    ∀ (q : Vec) (k : Nat),
      storeSearch (loadStore sv (mkStore st.persistDir)) q k = storeSearch st q k := by
  have hsv2 : sv = ⟨ix.vecs, st.metadata⟩ := by
    rw [saveStore, hix] at hsv
    exact (Except.ok.inj hsv).symm
  subst hsv2
  refine ⟨?_, rfl, ?_⟩
  · simp [vecCount, vecsOf, loadStore, mkStore, hix]
  · intro q k
    simp [storeSearch, loadStore, mkStore, hix]

/-- Witness for C5 on a two-vector store. -/
theorem C5_save_load_roundtrip_witness :
    ((⟨"d", some ⟨[[1], [2]]⟩, ["a", "b"]⟩ : Store String).index = some ⟨[[1], [2]]⟩ ∧
      saveStore (⟨"d", some ⟨[[1], [2]]⟩, ["a", "b"]⟩ : Store String) =
        Except.ok ⟨[[1], [2]], ["a", "b"]⟩) ∧
    vecCount (loadStore ⟨[[1], [2]], ["a", "b"]⟩
        (mkStore (⟨"d", some ⟨[[1], [2]]⟩, ["a", "b"]⟩ : Store String).persistDir)) =
      vecCount (⟨"d", some ⟨[[1], [2]]⟩, ["a", "b"]⟩ : Store String) ∧
    storeSearch (loadStore ⟨[[1], [2]], ["a", "b"]⟩
        (mkStore (⟨"d", some ⟨[[1], [2]]⟩, ["a", "b"]⟩ : Store String).persistDir)) [1] 3 =
      storeSearch (⟨"d", some ⟨[[1], [2]]⟩, ["a", "b"]⟩ : Store String) [1] 3 :=
  ⟨⟨rfl, rfl⟩,
    (C5_save_load_roundtrip (⟨"d", some ⟨[[1], [2]]⟩, ["a", "b"]⟩ : Store String)
      ⟨[[1], [2]]⟩ ⟨[[1], [2]], ["a", "b"]⟩ rfl rfl).1,
    (C5_save_load_roundtrip (⟨"d", some ⟨[[1], [2]]⟩, ["a", "b"]⟩ : Store String)
      ⟨[[1], [2]]⟩ ⟨[[1], [2]], ["a", "b"]⟩ rfl rfl).2.2 [1] 3⟩

/-- **C10** (confirmed).  A freshly constructed store has `index = None`,
and calling `search` — hence also `query` — before any build or load raises
(`AttributeError` on `None`) instead of returning an empty result list, for
every query and `top_k`. -/
theorem C10_fresh_store_search_raises {μ : Type} (pd : String) (embed : String → Vec)
    (t : String) (q : Vec) (k : Nat) :
    (mkStore pd : Store μ).index = none ∧
    storeSearch (mkStore pd : Store μ) q k = Except.error searchNoneErr ∧
    storeQuery embed (mkStore pd : Store μ) t k = Except.error searchNoneErr :=
  ⟨rfl, rfl, rfl⟩

/-! ## Loader lemmas and claims -/

theorem isObjB_iff {j : Json} : j.isObjB = true ↔ ∃ fields, j = Json.obj fields := by
  cases j <;> simp [Json.isObjB]

theorem except_bind_ok {α β : Type} (a : α) (f : α → Except String β) :
    (Except.ok a >>= f : Except String β) = f a := rfl

theorem except_map_ok {α β : Type} (a : α) (f : α → β) :
    (f <$> (Except.ok a : Except String α)) = Except.ok (f a) := rfl

/-- On a well-formed commit record the chained `.get` calls cannot raise and
produce exactly the claim-side extraction. -/
theorem commitDoc_ok {c : Json} (h : CommitWF c) :
    commitDoc c = Except.ok (specCommitDoc c) := by
  obtain ⟨h1, h2, h3⟩ := h
  obtain ⟨fields, rfl⟩ := isObjB_iff.mp h1
  simp only [Json.lookupD] at h2 h3
  obtain ⟨cff, hcf⟩ := isObjB_iff.mp h2
  rw [hcf] at h3
  simp only [Json.lookupD] at h3
  obtain ⟨aff, haf⟩ := isObjB_iff.mp h3
  simp [commitDoc, Json.pyGet, specCommitDoc, Json.lookupD, hcf, haf,
    except_bind_ok, except_map_ok]

/-- **C8** (confirmed).  `load_github_commits_json` produces one Document
per commit record, whose content is the nested commit message and whose
metadata holds the sha, the nested author name and the nested author date
(for records whose nesting is well-formed, so that the chained `.get`
defaults apply). -/
theorem C8_commit_loader (commits : List Json) (h : ∀ c ∈ commits, CommitWF c) :
    loadGithubCommitsJson commits = Except.ok (commits.map specCommitDoc) := by
  rw [loadGithubCommitsJson]
  apply mapM_ok_of_forall
  intro c hc
  exact commitDoc_ok (h c hc)

/-- Witness for C8 on the spec scenario record: content `"fix bug"`,
metadata sha `"abc123"`, author `"Dana"`, date `"2024-01-01"`. -/
theorem C8_commit_loader_witness :
    (∀ c ∈ [scenarioCommit], CommitWF c) ∧
    loadGithubCommitsJson [scenarioCommit] =
      Except.ok [⟨Json.str "fix bug",
        [("sha", Json.str "abc123"), ("author", Json.str "Dana"),
         ("date", Json.str "2024-01-01")]⟩] := by
  have hwf : ∀ c ∈ [scenarioCommit], CommitWF c := by
    intro c hc
    have hc2 : c = scenarioCommit := by simpa using hc
    subst hc2
    exact ⟨rfl, rfl, rfl⟩
  refine ⟨hwf, ?_⟩
  rw [C8_commit_loader [scenarioCommit] hwf]
  rfl

theorem loadAll_foldl (fileResults : List (Except String (List JDoc))) :
    ∀ acc : List JDoc,
      fileResults.foldl
        (fun acc r =>
          match r with
          | Except.ok ds => acc ++ ds
          | Except.error _ => acc) acc =
      acc ++ (fileResults.filterMap Except.toOption).flatten := by
  induction fileResults with
  | nil => intro acc; simp
  | cons r rs ih =>
    intro acc
    cases r with
    | ok ds => simp [List.foldl_cons, ih, Except.toOption, List.filterMap_cons]
    | error e => simp [List.foldl_cons, ih, Except.toOption, List.filterMap_cons]

/-- **C9** (confirmed).  The per-file try/except of `load_all_documents`
makes the overall result exactly the in-order concatenation of the
successfully loaded files' documents: a failing file contributes nothing,
is skipped, and never aborts the load of the remaining files. -/
theorem C9_per_file_failures_skipped (fileResults : List (Except String (List JDoc))) :
    loadAllDocuments fileResults = (fileResults.filterMap Except.toOption).flatten := by
  rw [loadAllDocuments, loadAll_foldl fileResults []]
  rfl

end MinervaAI
